import Mathlib

/- Shallow embedding of the CABAEL/max_ai streaming voice assistant
(main-streaming.js together with the audio streaming, speech-to-text,
LLM-client and text-to-speech utility modules), and theorems settling the
specification's claims about it.

Conventions of the embedding:
* a PCM audio segment is the list of its signed 16-bit samples
  (List Int); its length in bytes is twice its sample count;
* JS strings are embedded as List Char; JS String.prototype.indexOf,
  includes, substring, trim and the two anchored regex replaces used by
  the source are given explicit recursive definitions;
* JS numbers used as thresholds are embedded as rationals; the
  floating-point comparison sqrt(sumSquares / n) > threshold of
  detectAudioActivity is embedded by the algebraically equivalent squared
  comparison (sqrt is strictly monotone on nonnegatives and rms is
  nonnegative, so for threshold ≥ 0 the comparison is equivalent to
  sumSquares > threshold^2 * n, and for threshold < 0 it is always true);
* promise-based control flow is embedded as an explicit event-step
  machine over the handler state, with first-settlement-wins resolution. -/

namespace MaxAi

/-- Sum of squared sample values, the accumulator of the RMS loop in
detectAudioActivity (utils/stream-stt.js, lines 199 to 204). -/
def sumSquares (samples : List Int) : Int :=
  (samples.map (fun s => s * s)).sum

/-- detectAudioActivity(audioBuffer, threshold) from utils/stream-stt.js:
returns false outright for buffers of fewer than 1000 bytes; otherwise
computes rms = sqrt(sumSquares / n) over the 16-bit samples and returns
rms > threshold, embedded here by the squared comparison described in the
header comment. -/
def detectAudioActivity (samples : List Int) (threshold : ℚ) : Bool :=
  if 2 * samples.length < 1000 then false
  else if threshold < 0 then true
  else decide ((sumSquares samples : ℚ) > threshold ^ 2 * samples.length)

/-- isSilent(audioBuffer, silenceThreshold) from utils/stream-stt.js:
the fraction of samples whose absolute value is below the threshold,
true when that fraction exceeds 0.8. For the empty buffer JS computes
NaN > 0.8 = false; here 0 / 0 = 0 gives the same boolean. -/
def isSilent (samples : List Int) (silenceThreshold : ℚ) : Bool :=
  let silentSamples :=
    (samples.filter (fun s => decide ((s.natAbs : ℚ) < silenceThreshold))).length
  decide ((silentSamples : ℚ) / samples.length > 4 / 5)

/-- Modelled from the spec (section 4.2) for comparison with
detectAudioActivity: hasActivity computes RMS energy over all samples and
returns true exactly when RMS exceeds the threshold, with no
minimum-length gate. The sqrt comparison is embedded squared exactly as
in detectAudioActivity. -/
def hasActivitySpec (samples : List Int) (threshold : ℚ) : Bool :=
  if threshold < 0 then true
  else decide ((sumSquares samples : ℚ) > threshold ^ 2 * samples.length)

/-- Outcome of the activity gate at the top of processAudioChunk
(main-streaming.js, lines 67 to 92). -/
inductive ChunkAction where
  /-- Silent branch and the conversation timeout fired:
  exitConversationMode() runs. -/
  | exitTimeout
  /-- Silent branch without timeout: return with no transcription. -/
  | silentNoop
  /-- Speech-like segment: stt.transcribeBufferSafe is invoked. -/
  | transcribe
  deriving DecidableEq, Repr

/-- The conversationTimeout field of StreamingMaxAssistant: 60000
milliseconds (main-streaming.js, line 28). -/
def conversationTimeout : Int := 60000

/-- The head of processAudioChunk (main-streaming.js, lines 69 to 92):
hasActivity with threshold 200 and isSilent with threshold 100 gate the
segment; in the silent branch the idle timeout fires only while in a
conversation with neither the LLM processing nor speech playing and more
than conversationTimeout elapsed since lastActivity; otherwise the
segment is transcribed. -/
def processAudioChunkGate (samples : List Int)
    (isInConversation isProcessingLLM isSpeaking : Bool)
    (now lastActivity : Int) : ChunkAction :=
  let hasActivity := detectAudioActivity samples 200
  let isQuiet := isSilent samples 100
  if !hasActivity || isQuiet then
    if isInConversation && !isProcessingLLM && !isSpeaking
        && decide (now - lastActivity > conversationTimeout) then
      ChunkAction.exitTimeout
    else
      ChunkAction.silentNoop
  else
    ChunkAction.transcribe

/-- Conversation message role, as used in the history entries pushed by
processConversation (main-streaming.js, lines 207 to 210). -/
inductive Role where
  | user
  | assistant
  deriving DecidableEq, Repr

/-- One conversation history entry, a role and content pair. -/
structure Msg where
  role : Role
  content : List Char
  deriving DecidableEq, Repr

/-- trimConversationHistory(history, maxPairs = 8) from main-streaming.js
(lines 406 to 411): the history unchanged when its length is at most
maxPairs * 2, otherwise slice(-(maxPairs * 2)), the last maxPairs * 2
entries. -/
def trimConversationHistory (history : List Msg) (maxPairs : Nat) : List Msg :=
  if history.length ≤ maxPairs * 2 then history
  else history.drop (history.length - maxPairs * 2)

/-- The history update of one completed turn in processConversation
(main-streaming.js, lines 207 to 213): push the user and assistant
messages, then trim to the last 8 pairs. -/
def historyAfterTurn (history : List Msg) (userText reply : List Char) : List Msg :=
  trimConversationHistory
    (history ++ [⟨Role.user, userText⟩, ⟨Role.assistant, reply⟩]) 8

/-- JS String.prototype.toLowerCase, applied per character. -/
def toLowerText (text : List Char) : List Char :=
  text.map Char.toLower

/-- JS String.prototype.indexOf for a needle w in a haystack s: the index
of the first occurrence, none when absent. -/
def indexOfSub (w : List Char) : List Char → Option Nat
  | [] => if w.isPrefixOf ([] : List Char) then some 0 else none
  | c :: t =>
    if w.isPrefixOf (c :: t) then some 0
    else (indexOfSub w t).map (fun i => i + 1)

/-- JS String.prototype.includes, via indexOf. -/
def containsSub (w s : List Char) : Bool :=
  (indexOfSub w s).isSome

/-- The apostrophe character, written by code point to keep source
strings plain. -/
def apostropheChar : Char := Char.ofNat 39

/-- The fixed stop-word list shared by containsStopWords and
extractInstructionAfterStop (main-streaming.js, lines 268 to 271 and
283 to 286). -/
def stopWords : List (List Char) :=
  ["stop".data, "halt".data, "cancel".data, "abort".data, "quit".data,
   "enough".data, "nevermind".data, "never mind".data, "forget it".data,
   "skip".data, "pause".data, "wait".data]

/-- The four exit phrases tested in handleConversationInput
(main-streaming.js, lines 142 to 143); the last one is "that's all". -/
def exitPhrases : List (List Char) :=
  ["goodbye".data, "bye max".data, "go to sleep".data,
   "that".data ++ [apostropheChar] ++ "s all".data]

/-- containsStopWords(text) from main-streaming.js (lines 267 to 275):
true when any stop word is a substring of the lowercased text. -/
def containsStopWords (text : List Char) : Bool :=
  stopWords.any (fun w => containsSub w (toLowerText text))

/-- The exit-phrase test of handleConversationInput (main-streaming.js,
lines 141 to 143): any exit phrase is a substring of the lowercased
text. -/
def isExitPhrase (text : List Char) : Bool :=
  exitPhrases.any (fun p => containsSub p (toLowerText text))

/-- The running best match of the selection loop in
extractInstructionAfterStop: the JS pair of stopWordEnd (one past the end
of the match) and foundStopWord. -/
structure StopScan where
  endIdx : Nat
  word : List Char
  deriving DecidableEq, Repr

/-- One iteration of the selection loop of extractInstructionAfterStop
(main-streaming.js, lines 294 to 303): look up the first occurrence of
the stop word; keep it when no match is held yet or when its start index
is below the held match's start index (stopWordEnd minus
foundStopWord.length). -/
def scanStep (lowerText : List Char) (acc : Option StopScan)
    (stopWord : List Char) : Option StopScan :=
  match indexOfSub stopWord lowerText with
  | none => acc
  | some index =>
    match acc with
    | none => some ⟨index + stopWord.length, stopWord⟩
    | some m =>
      if index < m.endIdx - m.word.length then
        some ⟨index + stopWord.length, stopWord⟩
      else acc

/-- The full selection loop of extractInstructionAfterStop over the
stop-word list (main-streaming.js, lines 291 to 303). -/
def findStopMatch (lowerText : List Char) : Option StopScan :=
  stopWords.foldl (scanStep lowerText) none

/-- Modelled from the spec (section 4.4) for comparison with
findStopMatch: the same loop, but keeping the occurrence whose match
interval ends soonest, the spec's earliest-ending tie-break. -/
def scanStepSpec (lowerText : List Char) (acc : Option StopScan)
    (stopWord : List Char) : Option StopScan :=
  match indexOfSub stopWord lowerText with
  | none => acc
  | some index =>
    match acc with
    | none => some ⟨index + stopWord.length, stopWord⟩
    | some m =>
      if index + stopWord.length < m.endIdx then
        some ⟨index + stopWord.length, stopWord⟩
      else acc

/-- Modelled from the spec (section 4.4): selection of the
earliest-ending stop-word match. -/
def findStopMatchSpec (lowerText : List Char) : Option StopScan :=
  stopWords.foldl (scanStepSpec lowerText) none

/-- JS String.prototype.trim: strip leading and trailing whitespace. -/
def jsTrim (s : List Char) : List Char :=
  ((s.dropWhile Char.isWhitespace).reverse.dropWhile Char.isWhitespace).reverse

/-- The replace of the anchored regex matching a comma or semicolon
followed by optional whitespace (main-streaming.js, line 311). -/
def stripLeadingSeparator (s : List Char) : List Char :=
  match s with
  | [] => []
  | c :: t =>
    if c = ',' ∨ c = ';' then t.dropWhile Char.isWhitespace else c :: t

/-- One alternative of the anchored case-insensitive regex matching a
connective word followed by mandatory whitespace (main-streaming.js,
line 312): the lowercased prefix must equal the word and the next
character must be whitespace; on a match the word and the whitespace run
after it are removed. -/
def tryStripWord (w s : List Char) : Option (List Char) :=
  if toLowerText (s.take w.length) = w then
    match s.drop w.length with
    | r :: t =>
      if r.isWhitespace then some ((r :: t).dropWhile Char.isWhitespace)
      else none
    | [] => none
  else none

/-- The replace of the connective regex, trying the alternatives in the
order the source lists them. -/
def stripLeadingConnective (s : List Char) : List Char :=
  match tryStripWord "and".data s with
  | some r => r
  | none =>
    match tryStripWord "then".data s with
    | some r => r
    | none =>
      match tryStripWord "now".data s with
      | some r => r
      | none => s

/-- extractInstructionAfterStop(text) from main-streaming.js (lines 282
to 316): run the selection loop over the lowercased text; on a match,
take the substring after the match end in the original text, trim it,
strip a leading comma or semicolon, strip a leading connective word, and
return the remainder when its length exceeds 3, else none. -/
def extractInstructionAfterStop (text : List Char) : Option (List Char) :=
  match findStopMatch (toLowerText text) with
  | none => none
  | some m =>
    let remaining :=
      stripLeadingConnective (stripLeadingSeparator (jsTrim (text.drop m.endIdx)))
    if remaining.length > 3 then some remaining else none

/-- Modelled from the spec (section 4.4): extractInstructionAfterStop
with the earliest-ending selection rule, the remainder processing being
identical. -/
def extractInstructionAfterStopSpec (text : List Char) : Option (List Char) :=
  match findStopMatchSpec (toLowerText text) with
  | none => none
  | some m =>
    let remaining :=
      stripLeadingConnective (stripLeadingSeparator (jsTrim (text.drop m.endIdx)))
    if remaining.length > 3 then some remaining else none

/-- Occurrence of w in s at index j: w matches the characters of s
starting at j. -/
def occursAt (w s : List Char) (j : Nat) : Bool :=
  w.isPrefixOf (s.drop j)

/-- The action handleConversationInput (main-streaming.js, lines 137 to
181) takes on a transcribed input while in conversation mode. -/
inductive ConvAction where
  /-- Exit phrase: interrupt current processes, speak a farewell, leave
  conversation mode. -/
  | exitConversation
  /-- Stop word with a trailing instruction: interrupt current processes
  and immediately start a new turn with the instruction. -/
  | interruptAndRun (instruction : List Char)
  /-- Stop word alone: interrupt current processes and await the next
  input. -/
  | interruptOnly
  /-- LLM busy and the input is neither exit nor stop: discarded. -/
  | discardBusyThinking
  /-- Speech busy and the input is neither exit nor stop: discarded. -/
  | discardBusySpeaking
  /-- No operation outstanding: a normal turn runs. -/
  | normalTurn
  deriving DecidableEq, Repr

/-- handleConversationInput(text) from main-streaming.js (lines 137 to
181), as a function of the text and the two busy flags: exit phrases are
tested first, then stop words, then the two busy checks, and only then a
normal turn starts. -/
def handleConversationInput (text : List Char)
    (isProcessingLLM isSpeaking : Bool) : ConvAction :=
  if isExitPhrase text then ConvAction.exitConversation
  else if containsStopWords text then
    match extractInstructionAfterStop text with
    | some instruction => ConvAction.interruptAndRun instruction
    | none => ConvAction.interruptOnly
  else if isProcessingLLM then ConvAction.discardBusyThinking
  else if isSpeaking then ConvAction.discardBusySpeaking
  else ConvAction.normalTurn

/-- How the fetch inside sendToLMStudio (utils/llm.js) turns out. -/
inductive FetchOutcome where
  /-- HTTP success with a well-formed choices[0].message payload. -/
  | ok (reply : List Char)
  /-- HTTP success with an unexpected response shape. -/
  | badFormat
  /-- Non-ok HTTP status: the function throws and catches its own
  error. -/
  | httpError
  /-- The fetch itself rejects (network failure, invalid URL). -/
  | networkError
  deriving DecidableEq, Repr

/-- The apology string of the catch-all in sendToLMStudio
(utils/llm.js, line 79). -/
def connectionApology : List Char :=
  "Sorry, I".data ++ [apostropheChar] ++
    "m having trouble connecting to my brain right now.".data

/-- sendToLMStudio(message, conversationHistory, baseUrl) from
utils/llm.js (lines 11 to 81). The third positional parameter is the
base URL string: the function accepts no cancellation signal, and the
options object carrying the AbortController signal that main-streaming.js
passes in that position is never read as a signal. Every internal
failure is caught and converted to a string, so the call always resolves
with a reply string and never rejects, in particular never with an
AbortError. -/
def sendToLMStudio (fetch : FetchOutcome) : List Char :=
  match fetch with
  | FetchOutcome.ok reply => reply
  | FetchOutcome.badFormat => "I received an unexpected response format.".data
  | FetchOutcome.httpError => connectionApology
  | FetchOutcome.networkError => connectionApology

/-- How the promise awaited by sendToLMStudioWithInterruption settles. -/
inductive LLMSettled where
  | resolved (s : List Char)
  | rejectedAbortError
  | rejectedOther
  deriving DecidableEq, Repr

/-- sendToLMStudioWithInterruption (main-streaming.js, lines 352 to 386)
as a function of how the inner sendToLMStudio promise settles: the then
branch stores the result; the catch branch maps an AbortError to the
interrupted marker null and any other rejection to an apology; the outer
promise resolves with null exactly when the AbortError branch ran, since
isInterrupted is assigned nowhere else. -/
def sendToLMStudioWithInterruption : LLMSettled → Option (List Char)
  | LLMSettled.resolved s => some s
  | LLMSettled.rejectedAbortError => none
  | LLMSettled.rejectedOther =>
      some "Sorry, I encountered an error while thinking.".data

/-- The settlement sendToLMStudio actually produces, as a function of
whether the orchestrator has called abort() on its AbortController and
of the fetch outcome: it always resolves, because utils/llm.js never
attaches the signal to the request and catches every error internally. -/
def sendToLMStudioSettled (_abortSignalled : Bool)
    (fetch : FetchOutcome) : LLMSettled :=
  LLMSettled.resolved (sendToLMStudio fetch)

/-- The observable outcome of one processConversation turn after the LLM
call settles: the history afterwards and the text handed to the speech
path, if any. -/
structure TurnOutcome where
  history : List Msg
  spoken : Option (List Char)
  deriving DecidableEq, Repr

/-- processConversation after the awaited LLM result arrives
(main-streaming.js, lines 195 to 218): a null result means the turn was
interrupted and nothing is pushed or spoken; any string result is pushed
onto history together with the user message, the history is trimmed, and
the result is spoken. -/
def processConversationAfterLLM (history : List Msg) (userText : List Char)
    (llmResult : Option (List Char)) : TurnOutcome :=
  match llmResult with
  | none => ⟨history, none⟩
  | some response => ⟨historyAfterTurn history userText response, some response⟩

/-- State of the AudioStreamer byte pipeline: the segments emitted so
far and the retained buffer. -/
structure StreamState where
  emitted : List (List Nat)
  buffer : List Nat
  deriving DecidableEq, Repr

/-- The while loop of AudioStreamer.handleAudioChunk
(utils/stream-audio.js, lines 127 to 134): slice segments of exactly
chunkSize bytes off the front of the buffer while at least chunkSize
bytes are buffered. The JS loop terminates only for positive chunkSize,
which the constructor guarantees (64000 for the default configuration);
the positivity guard makes the recursion total. -/
def emitLoop (chunkSize : Nat) (buffer : List Nat) : List (List Nat) × List Nat :=
  if _h : 0 < chunkSize ∧ chunkSize ≤ buffer.length then
    let rest := emitLoop chunkSize (buffer.drop chunkSize)
    (buffer.take chunkSize :: rest.1, rest.2)
  else ([], buffer)
termination_by buffer.length
decreasing_by simp only [List.length_drop]; omega

/-- handleAudioChunk(chunk) from utils/stream-audio.js (lines 122 to
134): append the incoming bytes to the buffer, then emit complete
segments. -/
def handleAudioChunk (chunkSize : Nat) (st : StreamState)
    (chunk : List Nat) : StreamState :=
  let r := emitLoop chunkSize (st.buffer ++ chunk)
  ⟨st.emitted ++ r.1, r.2⟩

/-- The streamer run over a whole sequence of incoming byte chunks,
starting from the empty buffer of the constructor. -/
def runStreamer (chunkSize : Nat) (chunks : List (List Nat)) : StreamState :=
  chunks.foldl (handleAudioChunk chunkSize) ⟨[], []⟩

/-- Events delivered to the handlers installed by speakWithPyttsx3 and
speakWithSAPI (utils/system-processor.js, lines 450 to 652); both
functions install the same handler structure. -/
inductive SpeakEvent where
  /-- The interrupt monitor's onInterrupt callback fires. -/
  | interrupt
  /-- The child process close event, with its exit code. -/
  | closed (code : Int)
  /-- The child process error event. -/
  | errored
  deriving DecidableEq, Repr

/-- The result shape the speak promises resolve with. -/
structure SpeakResult where
  completed : Bool
  interrupted : Bool
  deriving DecidableEq, Repr

/-- A settled speak promise: resolved with a result, or rejected. -/
inductive SpeakSettled where
  | resolvedWith (r : SpeakResult)
  | rejected
  deriving DecidableEq, Repr

/-- Handler state of one speak invocation: the speechCompleted and
wasInterrupted flags, whether currentSpeechProcess is non-null, and the
settlement of the promise, none while pending. -/
structure SpeakState where
  speechCompleted : Bool
  wasInterrupted : Bool
  processAlive : Bool
  settled : Option SpeakSettled
  deriving DecidableEq, Repr

/-- The state right after the child process is spawned: flags clear,
process live, promise pending. -/
def initialSpeakState : SpeakState := ⟨false, false, true, none⟩

/-- Promise settlement with first-settlement-wins semantics: a second
resolve or reject on an already settled promise is a no-op. -/
def settleSpeak (st : SpeakState) (s : SpeakSettled) : SpeakState :=
  match st.settled with
  | some _ => st
  | none => ⟨st.speechCompleted, st.wasInterrupted, st.processAlive, some s⟩

/-- One handler firing of a speak invocation (utils/system-processor.js;
line references for the pyttsx3 variant, the SAPI variant at lines 608
to 645 is identical): the onInterrupt callback (lines 555 to 563) guards
on the speech not having completed and the process being live, then sets
wasInterrupted, kills and clears the process, and resolves with
completed false and interrupted true; the close handler (lines 512 to
535) clears the process, marks completion, and resolves with completed
true on exit code 0, resolves with interrupted true on a nonzero code
after an interruption, and rejects otherwise; the error handler (lines
537 to 551) clears the process and rejects. -/
def speakStep (st : SpeakState) : SpeakEvent → SpeakState
  | SpeakEvent.interrupt =>
    if !st.speechCompleted && st.processAlive then
      settleSpeak ⟨st.speechCompleted, true, false, st.settled⟩
        (SpeakSettled.resolvedWith ⟨false, true⟩)
    else st
  | SpeakEvent.closed code =>
    let st' : SpeakState := ⟨true, st.wasInterrupted, false, st.settled⟩
    if code = 0 then
      settleSpeak st' (SpeakSettled.resolvedWith ⟨true, st.wasInterrupted⟩)
    else if st.wasInterrupted then
      settleSpeak st' (SpeakSettled.resolvedWith ⟨false, true⟩)
    else settleSpeak st' SpeakSettled.rejected
  | SpeakEvent.errored =>
    settleSpeak ⟨st.speechCompleted, st.wasInterrupted, false, st.settled⟩
      SpeakSettled.rejected

/-- A speak invocation run over a sequence of handler events. -/
def runSpeak (events : List SpeakEvent) : SpeakState :=
  events.foldl speakStep initialSpeakState

/-- Invariant of the speak handler state: wasInterrupted is set only by
a handler that settles the promise in the same breath, and every
resolution carries exactly one of completed and interrupted. -/
def speakInv (st : SpeakState) : Prop :=
  (st.wasInterrupted = true → st.settled.isSome = true) ∧
  ∀ r, st.settled = some (SpeakSettled.resolvedWith r) →
    (r.completed = true ∧ r.interrupted = false) ∨
    (r.completed = false ∧ r.interrupted = true)

/-- Trimming never leaves more than maxPairs * 2 entries. -/
theorem trim_length_le (history : List Msg) (maxPairs : Nat) :
    (trimConversationHistory history maxPairs).length ≤ maxPairs * 2 := by
  unfold trimConversationHistory
  split
  · omega
  · rw [List.length_drop]; omega

/-- The fold of completed turns keeps the bound of trim_length_le. -/
theorem foldl_turns_length_le (turns : List (List Char × List Char)) :
    ∀ acc : List Msg, acc.length ≤ 16 →
      (turns.foldl (fun h t => historyAfterTurn h t.1 t.2) acc).length ≤ 16 := by
  induction turns with
  | nil => intro acc h; simpa using h
  | cons t ts ih =>
    intro acc _
    rw [List.foldl_cons]
    exact ih _ (trim_length_le _ 8)

/-- C4: after trimming, conversation history never exceeds 16 entries,
trimming removes only the oldest entries (the result is a suffix of the
input, so order is preserved), pushing 10 pairs then trimming yields
exactly the most recent 8 pairs, and every sequence of completed turns
leaves at most 16 entries. -/
theorem spec_C4 :
    (∀ history : List Msg,
      (trimConversationHistory history 8).length ≤ 16 ∧
      List.IsSuffix (trimConversationHistory history 8) history ∧
      (history.length = 20 →
        trimConversationHistory history 8 = history.drop 4)) ∧
    (∀ turns : List (List Char × List Char),
      (turns.foldl (fun h t => historyAfterTurn h t.1 t.2) []).length ≤ 16) := by
  constructor
  · intro history
    refine ⟨trim_length_le history 8, ?_, ?_⟩
    · unfold trimConversationHistory
      split
      · exact List.suffix_refl _
      · exact List.drop_suffix _ _
    · intro h20
      unfold trimConversationHistory
      rw [if_neg (by omega), h20]
  · intro turns
    exact foldl_turns_length_le turns [] (by simp)

/-- Witness for C4: a concrete 20-entry history trims to its last 16
entries. -/
theorem spec_C4_witness :
    trimConversationHistory (List.replicate 20 (⟨Role.user, []⟩ : Msg)) 8
      = (List.replicate 20 (⟨Role.user, []⟩ : Msg)).drop 4 :=
  (spec_C4.1 _).2.2 (by simp)

/-- C10: detectAudioActivity classifies every buffer of fewer than 1000
bytes (500 samples) as inactive, whatever the samples and the
threshold. -/
theorem spec_C10 :
    ∀ (samples : List Int) (threshold : ℚ),
      2 * samples.length < 1000 →
      detectAudioActivity samples threshold = false := by
  intro samples threshold h
  unfold detectAudioActivity
  rw [if_pos h]

/-- Witness for C10: three samples at full amplitude with a negative
threshold still count as inactive. -/
theorem spec_C10_witness :
    2 * ([32000, 32000, 32000] : List Int).length < 1000 ∧
      detectAudioActivity [32000, 32000, 32000] (-5) = false :=
  ⟨by decide, spec_C10 [32000, 32000, 32000] (-5) (by decide)⟩

/-- Counterexample to C7 as stated: a 4-byte buffer of two loud samples
has RMS 30000, far above the threshold 200, yet detectAudioActivity
returns false because of the 1000-byte minimum-length gate. -/
theorem spec_C7_counterexample :
    hasActivitySpec [30000, 30000] 200 = true ∧
      detectAudioActivity [30000, 30000] 200 = false := by
  constructor
  · unfold hasActivitySpec
    rw [if_neg (by norm_num)]
    rw [decide_eq_true_eq]
    unfold sumSquares
    norm_num
  · unfold detectAudioActivity
    rw [if_pos (by norm_num)]

/-- C7 amended: for buffers of at least 1000 bytes, detectAudioActivity
returns true exactly when the RMS energy exceeds the threshold; shorter
buffers always yield false; and isSilent returns true exactly when the
fraction of samples below its threshold exceeds 0.8. -/
theorem spec_C7_amended :
    ∀ (samples : List Int) (threshold : ℚ),
      (1000 ≤ 2 * samples.length →
        detectAudioActivity samples threshold = hasActivitySpec samples threshold) ∧
      (2 * samples.length < 1000 →
        detectAudioActivity samples threshold = false) ∧
      (isSilent samples threshold = true ↔
        (((samples.filter
            (fun s => decide ((s.natAbs : ℚ) < threshold))).length : ℚ)
          / samples.length > 4 / 5)) := by
  intro samples threshold
  refine ⟨?_, ?_, ?_⟩
  · intro h
    unfold detectAudioActivity hasActivitySpec
    rw [if_neg (by omega)]
  · intro h
    unfold detectAudioActivity
    rw [if_pos h]
  · unfold isSilent
    simp

/-- Witness for C7 amended: a 1000-byte buffer of 500 zero samples agrees
with the ungated RMS classifier. -/
theorem spec_C7_witness :
    1000 ≤ 2 * (List.replicate 500 (0 : Int)).length ∧
      detectAudioActivity (List.replicate 500 (0 : Int)) 200
        = hasActivitySpec (List.replicate 500 (0 : Int)) 200 :=
  ⟨by norm_num [List.length_replicate],
    (spec_C7_amended (List.replicate 500 (0 : Int)) 200).1
      (by norm_num [List.length_replicate])⟩

/-- C6: a segment that fails the activity test or passes the silence
test is never transcribed, in any orchestrator state. -/
theorem spec_C6 :
    ∀ (samples : List Int) (isInConversation isProcessingLLM isSpeaking : Bool)
      (now lastActivity : Int),
      detectAudioActivity samples 200 = false ∨ isSilent samples 100 = true →
      processAudioChunkGate samples isInConversation isProcessingLLM isSpeaking
          now lastActivity ≠ ChunkAction.transcribe := by
  intro samples c l p n la h
  unfold processAudioChunkGate
  have hsil : (!detectAudioActivity samples 200 || isSilent samples 100) = true := by
    rcases h with h | h <;> simp [h]
  rw [if_pos hsil]
  split <;> exact fun hEq => nomatch hEq

/-- Witness for C6: the empty segment is silent and is not transcribed. -/
theorem spec_C6_witness :
    (detectAudioActivity [] 200 = false ∨ isSilent [] 100 = true) ∧
      processAudioChunkGate [] true false false 0 0 ≠ ChunkAction.transcribe :=
  ⟨Or.inl (by decide), spec_C6 [] true false false 0 0 (Or.inl (by decide))⟩

/-- Characterization of the exitTimeout branch of the chunk gate. -/
theorem gate_exitTimeout_iff (samples : List Int) (c l p : Bool) (n la : Int) :
    processAudioChunkGate samples c l p n la = ChunkAction.exitTimeout ↔
      ((detectAudioActivity samples 200 = false ∨ isSilent samples 100 = true) ∧
        c = true ∧ l = false ∧ p = false ∧ n - la > conversationTimeout) := by
  unfold processAudioChunkGate
  constructor
  · intro h
    by_cases hg : (!detectAudioActivity samples 200 || isSilent samples 100) = true
    · rw [if_pos hg] at h
      by_cases hc : (c && !l && !p && decide (n - la > conversationTimeout)) = true
      · simp only [Bool.or_eq_true, Bool.not_eq_true'] at hg
        simp only [Bool.and_eq_true, Bool.not_eq_true', decide_eq_true_eq] at hc
        exact ⟨hg, hc.1.1.1, hc.1.1.2, hc.1.2, hc.2⟩
      · rw [if_neg hc] at h
        exact absurd h (fun hEq => nomatch hEq)
    · rw [if_neg hg] at h
      exact absurd h (fun hEq => nomatch hEq)
  · rintro ⟨hsil, hc, hl, hp, ht⟩
    subst hc; subst hl; subst hp
    have hg : (!detectAudioActivity samples 200 || isSilent samples 100) = true := by
      rcases hsil with h | h <;> simp [h]
    rw [if_pos hg, if_pos (by simp [ht])]

/-- C3: the idle timeout fires exactly on a silent segment while in a
conversation with neither the LLM nor speech outstanding and more than
60000 ms since the last activity, and never while thinking or speaking
is outstanding. -/
theorem spec_C3 :
    ∀ (samples : List Int) (isInConversation isProcessingLLM isSpeaking : Bool)
      (now lastActivity : Int),
      (processAudioChunkGate samples isInConversation isProcessingLLM isSpeaking
          now lastActivity = ChunkAction.exitTimeout ↔
        ((detectAudioActivity samples 200 = false ∨ isSilent samples 100 = true) ∧
          isInConversation = true ∧ isProcessingLLM = false ∧ isSpeaking = false ∧
          now - lastActivity > conversationTimeout)) ∧
      (isProcessingLLM = true ∨ isSpeaking = true →
        processAudioChunkGate samples isInConversation isProcessingLLM isSpeaking
          now lastActivity ≠ ChunkAction.exitTimeout) := by
  intro samples c l p n la
  refine ⟨gate_exitTimeout_iff samples c l p n la, ?_⟩
  intro hbusy heq
  rw [gate_exitTimeout_iff] at heq
  rcases hbusy with hb | hb <;> simp [hb] at heq

/-- Witness for C3: with the LLM flag set, a silent segment 70 seconds
after the last activity does not fire the timeout. -/
theorem spec_C3_witness :
    (true = true ∨ false = true) ∧
      processAudioChunkGate [] true true false 70000 0 ≠ ChunkAction.exitTimeout :=
  ⟨Or.inl rfl, (spec_C3 [] true true false 70000 0).2 (Or.inl rfl)⟩

/-- C2: handleConversationInput tests the exit phrase first, then the
stop words, then the two busy flags, and only then runs a normal turn;
while an operation is outstanding, an input that is neither an exit nor
a stop phrase is discarded. -/
theorem spec_C2 :
    ∀ (text : List Char) (isProcessingLLM isSpeaking : Bool),
      (isExitPhrase text = true →
        handleConversationInput text isProcessingLLM isSpeaking
          = ConvAction.exitConversation) ∧
      (isExitPhrase text = false → containsStopWords text = true →
        handleConversationInput text isProcessingLLM isSpeaking
          = (match extractInstructionAfterStop text with
             | some instruction => ConvAction.interruptAndRun instruction
             | none => ConvAction.interruptOnly)) ∧
      (isExitPhrase text = false → containsStopWords text = false →
        isProcessingLLM = true ∨ isSpeaking = true →
        (handleConversationInput text isProcessingLLM isSpeaking
            = ConvAction.discardBusyThinking ∨
         handleConversationInput text isProcessingLLM isSpeaking
            = ConvAction.discardBusySpeaking)) ∧
      (isExitPhrase text = false → containsStopWords text = false →
        isProcessingLLM = false → isSpeaking = false →
        handleConversationInput text isProcessingLLM isSpeaking
          = ConvAction.normalTurn) := by
  intro text l p
  refine ⟨?_, ?_, ?_, ?_⟩
  · intro hx; unfold handleConversationInput; rw [if_pos hx]
  · intro hx hs; unfold handleConversationInput; rw [if_neg (by simp [hx]), if_pos hs]
  · intro hx hs hbusy
    unfold handleConversationInput
    rw [if_neg (by simp [hx]), if_neg (by simp [hs])]
    rcases hbusy with hb | hb
    · left; rw [if_pos hb]
    · cases l
      · right; rw [if_neg (by simp), if_pos hb]
      · left; simp
  · intro hx hs hl hp
    unfold handleConversationInput
    rw [if_neg (by simp [hx]), if_neg (by simp [hs]),
      if_neg (by simp [hl]), if_neg (by simp [hp])]

/-- Witness for C2: with the LLM busy, an input with no exit phrase and
no stop word is discarded. -/
theorem spec_C2_witness :
    (isExitPhrase "tell me more".data = false ∧
      containsStopWords "tell me more".data = false) ∧
    (handleConversationInput "tell me more".data true false
        = ConvAction.discardBusyThinking ∨
      handleConversationInput "tell me more".data true false
        = ConvAction.discardBusySpeaking) :=
  ⟨⟨by decide, by decide⟩,
    (spec_C2 "tell me more".data true false).2.2.1 (by decide) (by decide)
      (Or.inl rfl)⟩

/-- C1, evaluated on the failing path: sendToLMStudio accepts no
cancellation signal (its third parameter is the base URL, where the
orchestrator's options object lands unread) and always resolves with a
string, so sendToLMStudioWithInterruption never returns the cancelled
marker null when the underlying call settles, even after abort() was
signalled; the late reply is then appended to history and spoken by
processConversation. -/
theorem spec_C1_bug :
    (∀ (abortSignalled : Bool) (fetch : FetchOutcome),
      (sendToLMStudioWithInterruption
        (sendToLMStudioSettled abortSignalled fetch)).isSome = true) ∧
    (sendToLMStudioWithInterruption
        (sendToLMStudioSettled true (FetchOutcome.ok "It is sunny.".data))
      = some "It is sunny.".data) ∧
    (processConversationAfterLLM [] "what is the weather".data
        (sendToLMStudioWithInterruption
          (sendToLMStudioSettled true (FetchOutcome.ok "It is sunny.".data)))
      = ⟨[⟨Role.user, "what is the weather".data⟩,
          ⟨Role.assistant, "It is sunny.".data⟩],
          some "It is sunny.".data⟩) := by
  refine ⟨?_, rfl, ?_⟩
  · intro a fetch; cases fetch <;> rfl
  · decide

/-- The speak handler invariant is preserved by every handler firing. -/
theorem speakStep_inv (sc wi pa : Bool) (se : Option SpeakSettled) (e : SpeakEvent)
    (h : speakInv ⟨sc, wi, pa, se⟩) : speakInv (speakStep ⟨sc, wi, pa, se⟩ e) := by
  obtain ⟨h1, h2⟩ := h
  cases e with
  | interrupt =>
    simp only [speakStep]
    by_cases hg : (!sc && pa) = true
    · rw [if_pos hg]
      cases se with
      | none =>
        refine ⟨fun _ => rfl, fun r hr => ?_⟩
        simp only [settleSpeak] at hr
        cases hr
        right; exact ⟨rfl, rfl⟩
      | some s =>
        refine ⟨fun _ => rfl, fun r hr => ?_⟩
        simp only [settleSpeak] at hr
        exact h2 r hr
    · rw [if_neg hg]
      exact ⟨h1, h2⟩
  | closed code =>
    simp only [speakStep]
    by_cases hz : code = 0
    · rw [if_pos hz]
      cases se with
      | none =>
        have hwi : wi = false := by
          cases hwi : wi
          · rfl
          · exact absurd (h1 hwi) (by simp)
        subst hwi
        refine ⟨fun _ => rfl, fun r hr => ?_⟩
        simp only [settleSpeak] at hr
        cases hr
        left; exact ⟨rfl, rfl⟩
      | some s =>
        refine ⟨fun _ => rfl, fun r hr => ?_⟩
        simp only [settleSpeak] at hr
        exact h2 r hr
    · rw [if_neg hz]
      cases hwi : wi with
      | true =>
        rw [if_pos rfl]
        cases se with
        | none => exact absurd (h1 hwi) (by simp)
        | some s =>
          refine ⟨fun _ => rfl, fun r hr => ?_⟩
          simp only [settleSpeak] at hr
          exact h2 r hr
      | false =>
        rw [if_neg (by simp)]
        cases se with
        | none =>
          refine ⟨fun _ => rfl, fun r hr => ?_⟩
          simp only [settleSpeak] at hr
          cases hr
        | some s =>
          refine ⟨fun _ => rfl, fun r hr => ?_⟩
          simp only [settleSpeak] at hr
          exact h2 r hr
  | errored =>
    simp only [speakStep]
    cases se with
    | none =>
      refine ⟨fun hwi => ?_, fun r hr => ?_⟩
      · simp only [settleSpeak] at hwi ⊢
        rfl
      · simp only [settleSpeak] at hr
        cases hr
    | some s =>
      refine ⟨fun _ => rfl, fun r hr => ?_⟩
      simp only [settleSpeak] at hr
      exact h2 r hr

/-- The invariant holds after any run of handler events. -/
theorem runSpeak_inv (events : List SpeakEvent) :
    ∀ st : SpeakState, speakInv st → speakInv (events.foldl speakStep st) := by
  induction events with
  | nil => intro st h; simpa using h
  | cons e es ih =>
    intro st h
    rw [List.foldl_cons]
    exact ih _ (speakStep_inv st.speechCompleted st.wasInterrupted
      st.processAlive st.settled e h)

/-- C8: whenever a speak invocation resolves (rather than rejects), the
result has exactly one of completed and interrupted set. -/
theorem spec_C8 :
    ∀ (events : List SpeakEvent) (r : SpeakResult),
      (runSpeak events).settled = some (SpeakSettled.resolvedWith r) →
      (r.completed = true ∧ r.interrupted = false) ∨
      (r.completed = false ∧ r.interrupted = true) := by
  intro events r hr
  have h := runSpeak_inv events initialSpeakState ⟨by simp [initialSpeakState], ?_⟩
  · exact h.2 r hr
  · intro r hr
    simp [initialSpeakState] at hr

/-- Witness for C8: a clean close with exit code 0 resolves with
completed true and interrupted false. -/
theorem spec_C8_witness :
    (runSpeak [SpeakEvent.closed 0]).settled
        = some (SpeakSettled.resolvedWith ⟨true, false⟩) ∧
      ((true = true ∧ false = false) ∨ (true = false ∧ false = true)) :=
  ⟨by decide, spec_C8 [SpeakEvent.closed 0] ⟨true, false⟩ (by decide)⟩

/-- The slicing loop conserves the bytes it was given, emits only
segments of exactly chunkSize bytes, and retains fewer than chunkSize
bytes. -/
theorem emitLoop_spec (chunkSize : Nat) (hc : 0 < chunkSize) (buffer : List Nat) :
    (emitLoop chunkSize buffer).1.flatten ++ (emitLoop chunkSize buffer).2 = buffer ∧
    (∀ seg ∈ (emitLoop chunkSize buffer).1, seg.length = chunkSize) ∧
    (emitLoop chunkSize buffer).2.length < chunkSize := by
  induction buffer using emitLoop.induct chunkSize with
  | case1 buffer h ih =>
    rw [emitLoop, dif_pos h]
    obtain ⟨ih1, ih2, ih3⟩ := ih
    refine ⟨?_, ?_, ih3⟩
    · simp only [List.flatten_cons, List.append_assoc, ih1]
      exact List.take_append_drop chunkSize buffer
    · intro seg hseg
      rcases List.mem_cons.mp hseg with hseg | hseg
      · subst hseg
        rw [List.length_take]
        omega
      · exact ih2 seg hseg
  | case2 buffer h =>
    rw [emitLoop, dif_neg h]
    refine ⟨rfl, fun seg hseg => absurd hseg (List.not_mem_nil seg), ?_⟩
    simp only [not_and, not_le] at h
    exact h hc

/-- The streamer fold conserves bytes, emits only full segments, and
keeps the retained buffer short. -/
theorem runStreamer_inv (chunkSize : Nat) (hc : 0 < chunkSize) :
    ∀ (chunks : List (List Nat)) (st : StreamState),
      ((chunks.foldl (handleAudioChunk chunkSize) st).emitted.flatten ++
          (chunks.foldl (handleAudioChunk chunkSize) st).buffer
        = st.emitted.flatten ++ st.buffer ++ chunks.flatten) ∧
      (∀ seg ∈ (chunks.foldl (handleAudioChunk chunkSize) st).emitted,
        seg ∈ st.emitted ∨ seg.length = chunkSize) ∧
      (st.buffer.length < chunkSize →
        (chunks.foldl (handleAudioChunk chunkSize) st).buffer.length < chunkSize) := by
  intro chunks
  induction chunks with
  | nil =>
    intro st
    refine ⟨?_, fun seg hseg => Or.inl hseg, fun h => h⟩
    simp
  | cons c cs ih =>
    intro st
    rw [List.foldl_cons]
    obtain ⟨e1, e2, e3⟩ := emitLoop_spec chunkSize hc (st.buffer ++ c)
    obtain ⟨i1, i2, i3⟩ := ih (handleAudioChunk chunkSize st c)
    refine ⟨?_, ?_, fun _ => i3 e3⟩
    · rw [i1]
      simp only [handleAudioChunk, List.flatten_append, List.flatten_cons,
        List.append_assoc]
      rw [← List.append_assoc (emitLoop chunkSize (st.buffer ++ c)).1.flatten]
      rw [e1]
      simp [List.append_assoc]
    · intro seg hseg
      rcases i2 seg hseg with hmem | hlen
      · simp only [handleAudioChunk, List.mem_append] at hmem
        rcases hmem with hmem | hmem
        · exact Or.inl hmem
        · exact Or.inr (e2 seg hmem)
      · exact Or.inr hlen

/-- C9: every segment the streamer emits has exactly the configured byte
length, the emitted segments concatenate (in emission order) to a prefix
of the concatenated input bytes with the retained buffer as the exact
remainder, and the buffer always stays shorter than one segment. -/
theorem spec_C9 :
    ∀ (chunkSize : Nat), 0 < chunkSize →
      ∀ (chunks : List (List Nat)),
        ((runStreamer chunkSize chunks).emitted.flatten ++
            (runStreamer chunkSize chunks).buffer = chunks.flatten) ∧
        (∀ seg ∈ (runStreamer chunkSize chunks).emitted,
          seg.length = chunkSize) ∧
        ((runStreamer chunkSize chunks).buffer.length < chunkSize) ∧
        List.IsPrefix (runStreamer chunkSize chunks).emitted.flatten
          chunks.flatten := by
  intro chunkSize hc chunks
  obtain ⟨h1, h2, h3⟩ := runStreamer_inv chunkSize hc chunks ⟨[], []⟩
  simp only [List.flatten_nil, List.nil_append] at h1
  refine ⟨h1, ?_, h3 (by simpa using hc), ⟨(runStreamer chunkSize chunks).buffer, h1⟩⟩
  intro seg hseg
  rcases h2 seg hseg with hmem | hlen
  · exact absurd hmem (List.not_mem_nil seg)
  · exact hlen

/-- An index returned by indexOfSub is an occurrence, and the least
one. -/
theorem indexOfSub_some (w : List Char) :
    ∀ (s : List Char) (i : Nat), indexOfSub w s = some i →
      occursAt w s i = true ∧ ∀ j, j < i → occursAt w s j = false := by
  intro s
  induction s with
  | nil =>
    intro i h
    simp only [indexOfSub] at h
    by_cases hp : w.isPrefixOf ([] : List Char) = true
    · rw [if_pos hp] at h
      cases h
      refine ⟨?_, fun j hj => absurd hj (Nat.not_lt_zero j)⟩
      simp only [occursAt, List.drop_nil]
      exact hp
    · rw [if_neg hp] at h
      nomatch h
  | cons c t ih =>
    intro i h
    simp only [indexOfSub] at h
    by_cases hp : w.isPrefixOf (c :: t) = true
    · rw [if_pos hp] at h
      cases h
      refine ⟨?_, fun j hj => absurd hj (Nat.not_lt_zero j)⟩
      simp only [occursAt, List.drop_zero]
      exact hp
    · rw [if_neg hp] at h
      cases hidx : indexOfSub w t with
      | none => rw [hidx] at h; nomatch h
      | some i' =>
        rw [hidx] at h
        simp only [Option.map_some'] at h
        obtain ⟨ho, hmin⟩ := ih i' hidx
        cases h
        constructor
        · simp only [occursAt, List.drop_succ_cons]
          exact ho
        · intro j hj
          cases j with
          | zero =>
            simp only [occursAt, List.drop_zero]
            simp only [Bool.not_eq_true] at hp
            exact hp
          | succ k =>
            simp only [occursAt, List.drop_succ_cons]
            exact hmin k (by omega)

/-- When indexOfSub finds nothing, there is no occurrence at all. -/
theorem indexOfSub_none (w : List Char) :
    ∀ s : List Char, indexOfSub w s = none → ∀ j, occursAt w s j = false := by
  intro s
  induction s with
  | nil =>
    intro h j
    simp only [indexOfSub] at h
    by_cases hp : w.isPrefixOf ([] : List Char) = true
    · rw [if_pos hp] at h; nomatch h
    · simp only [Bool.not_eq_true] at hp
      simp only [occursAt, List.drop_nil]
      exact hp
  | cons c t ih =>
    intro h j
    simp only [indexOfSub] at h
    by_cases hp : w.isPrefixOf (c :: t) = true
    · rw [if_pos hp] at h; nomatch h
    · rw [if_neg hp] at h
      cases hidx : indexOfSub w t with
      | some i' => rw [hidx] at h; nomatch h
      | none =>
        cases j with
        | zero =>
          simp only [occursAt, List.drop_zero]
          simp only [Bool.not_eq_true] at hp
          exact hp
        | succ k =>
          simp only [occursAt, List.drop_succ_cons]
          exact ih hidx k

/-- Every occurrence is at or after the index indexOfSub returns. -/
theorem indexOfSub_complete (w : List Char) :
    ∀ (s : List Char) (j : Nat), occursAt w s j = true →
      ∃ i, indexOfSub w s = some i ∧ i ≤ j := by
  intro s
  induction s with
  | nil =>
    intro j h
    simp only [occursAt, List.drop_nil] at h
    refine ⟨0, ?_, Nat.zero_le j⟩
    simp only [indexOfSub]
    rw [if_pos h]
  | cons c t ih =>
    intro j h
    by_cases hp : w.isPrefixOf (c :: t) = true
    · refine ⟨0, ?_, Nat.zero_le j⟩
      simp only [indexOfSub]
      rw [if_pos hp]
    · cases j with
      | zero =>
        simp only [occursAt, List.drop_zero] at h
        exact absurd h hp
      | succ k =>
        simp only [occursAt, List.drop_succ_cons] at h
        obtain ⟨i', hi', hle⟩ := ih k h
        refine ⟨i' + 1, ?_, by omega⟩
        simp only [indexOfSub]
        rw [if_neg hp, hi']
        rfl

/-- Two occurrences whose intervals nest force the inner needle to occur
inside the outer one. -/
theorem occ_nest (s A B : List Char) (i j : Nat)
    (hA : occursAt A s i = true) (hB : occursAt B s j = true)
    (hij : i ≤ j) (hend : j + B.length ≤ i + A.length) :
    B.isPrefixOf (A.drop (j - i)) = true := by
  simp only [occursAt, List.isPrefixOf_iff_prefix] at hA hB ⊢
  have hs : List.drop j s = List.drop (j - i) (List.drop i s) := by
    rw [List.drop_drop]
    congr 1
    omega
  rw [hs] at hB
  obtain ⟨t, ht⟩ := hA
  have hdropA : A.drop (j - i) <+: List.drop (j - i) (List.drop i s) := by
    rw [← ht, List.drop_append_eq_append_drop]
    exact ⟨_, rfl⟩
  have hBlen : B.length ≤ (A.drop (j - i)).length := by
    rw [List.length_drop]
    omega
  exact List.prefix_of_prefix_length_le hB hdropA hBlen

/-- No stop word occurs inside another: checked over the fixed list for
in-range drops, with out-of-range drops giving the empty list and every
stop word nonempty. -/
theorem stopWords_no_contain :
    ∀ A ∈ stopWords, ∀ B ∈ stopWords, A ≠ B →
      ∀ k, B.isPrefixOf (A.drop k) = false := by
  have hrange : ∀ A ∈ stopWords, ∀ B ∈ stopWords, A ≠ B →
      ∀ k ∈ List.range (A.length + 1), B.isPrefixOf (A.drop k) = false := by
    decide
  have hne : ∀ B ∈ stopWords, B ≠ [] := by decide
  intro A hA B hB hAB k
  by_cases hk : k ≤ A.length
  · exact hrange A hA B hB hAB k (List.mem_range.mpr (by omega))
  · rw [List.drop_eq_nil_of_le (by omega)]
    cases hB' : B with
    | nil => exact absurd hB' (hne B hB)
    | cons b bs => rfl

/-- For occurrences of two distinct stop words, comparing start indices
agrees with comparing end indices: intervals of stop-word occurrences
never nest, so the two orders coincide. -/
theorem occ_order (s A B : List Char) (i j : Nat)
    (hA : A ∈ stopWords) (hB : B ∈ stopWords) (hne : A ≠ B)
    (hoA : occursAt A s i = true) (hoB : occursAt B s j = true) :
    i < j ↔ i + A.length < j + B.length := by
  constructor
  · intro hij
    by_contra hle
    push_neg at hle
    have hnest := occ_nest s A B i j hoA hoB (by omega) (by omega)
    rw [stopWords_no_contain A hA B hB hne (j - i)] at hnest
    nomatch hnest
  · intro hend
    by_contra hle
    push_neg at hle
    have hnest := occ_nest s B A j i hoB hoA (by omega) (by omega)
    rw [stopWords_no_contain B hB A hA (Ne.symm hne) (i - j)] at hnest
    nomatch hnest

/-- The selection loops of the source (comparing start indices) and of
the spec (comparing end indices) fold identically over any tail of the
stop-word list, given that the held match is a first occurrence of a
stop word not in that tail. -/
theorem foldl_scan_eq (lower : List Char) :
    ∀ (ws : List (List Char)) (acc : Option StopScan),
      ws.Nodup → (∀ w ∈ ws, w ∈ stopWords) →
      (∀ m, acc = some m → m.word ∈ stopWords ∧ m.word ∉ ws ∧
        indexOfSub m.word lower = some (m.endIdx - m.word.length) ∧
        m.word.length ≤ m.endIdx) →
      List.foldl (scanStep lower) acc ws = List.foldl (scanStepSpec lower) acc ws := by
  intro ws
  induction ws with
  | nil => intro acc _ _ _; rfl
  | cons w ws ih =>
    intro acc hnd hsub hinv
    rw [List.foldl_cons, List.foldl_cons]
    have hw : w ∈ stopWords := hsub w (List.mem_cons_self w ws)
    have hstep : scanStep lower acc w = scanStepSpec lower acc w ∧
        (∀ m, scanStepSpec lower acc w = some m → m.word ∈ stopWords ∧ m.word ∉ ws ∧
          indexOfSub m.word lower = some (m.endIdx - m.word.length) ∧
          m.word.length ≤ m.endIdx) := by
      cases hidx : indexOfSub w lower with
      | none =>
        constructor
        · simp only [scanStep, scanStepSpec, hidx]
        · intro m hm
          simp only [scanStepSpec, hidx] at hm
          obtain ⟨q1, q2, q3, q4⟩ := hinv m hm
          exact ⟨q1, fun hmem => q2 (List.mem_cons_of_mem w hmem), q3, q4⟩
      | some i =>
        cases hacc : acc with
        | none =>
          subst hacc
          constructor
          · simp only [scanStep, scanStepSpec, hidx]
          · intro m hm
            simp only [scanStepSpec, hidx] at hm
            cases hm
            refine ⟨hw, (List.nodup_cons.mp hnd).1, ?_, ?_⟩
            · show indexOfSub w lower = some (i + w.length - w.length)
              rw [show i + w.length - w.length = i from by omega]
              exact hidx
            · show w.length ≤ i + w.length
              omega
        | some m0 =>
          subst hacc
          obtain ⟨q1, q2, q3, q4⟩ := hinv m0 rfl
          have hne : w ≠ m0.word := fun he =>
            q2 (he ▸ List.mem_cons_self w ws)
          have hoW : occursAt w lower i = true :=
            (indexOfSub_some w lower i hidx).1
          have hoM : occursAt m0.word lower (m0.endIdx - m0.word.length) = true :=
            (indexOfSub_some m0.word lower _ q3).1
          have hiff : i < m0.endIdx - m0.word.length ↔ i + w.length < m0.endIdx := by
            rw [occ_order lower w m0.word i (m0.endIdx - m0.word.length)
              hw q1 hne hoW hoM]
            omega
          constructor
          · simp only [scanStep, scanStepSpec, hidx]
            by_cases hlt : i < m0.endIdx - m0.word.length
            · rw [if_pos hlt, if_pos (hiff.mp hlt)]
            · rw [if_neg hlt, if_neg (fun hc => hlt (hiff.mpr hc))]
          · intro m hm
            simp only [scanStepSpec, hidx] at hm
            by_cases hlt2 : i + w.length < m0.endIdx
            · rw [if_pos hlt2] at hm
              cases hm
              refine ⟨hw, (List.nodup_cons.mp hnd).1, ?_, ?_⟩
              · show indexOfSub w lower = some (i + w.length - w.length)
                rw [show i + w.length - w.length = i from by omega]
                exact hidx
              · show w.length ≤ i + w.length
                omega
            · rw [if_neg hlt2] at hm
              cases hm
              exact ⟨q1, fun hmem => q2 (List.mem_cons_of_mem w hmem), q3, q4⟩
    rw [hstep.1]
    exact ih (scanStepSpec lower acc w) (List.nodup_cons.mp hnd).2
      (fun w' hw' => hsub w' (List.mem_cons_of_mem w hw')) hstep.2

/-- The spec-side selection fold returns a match whose end index is at
most the end of the held match and of every first occurrence of a word
in the folded list. -/
theorem foldl_spec_min (lower : List Char) :
    ∀ (ws : List (List Char)) (acc : Option StopScan) (mq : StopScan),
      List.foldl (scanStepSpec lower) acc ws = some mq →
      (∀ m, acc = some m → mq.endIdx ≤ m.endIdx) ∧
      (∀ w ∈ ws, ∀ i, indexOfSub w lower = some i →
        mq.endIdx ≤ i + w.length) := by
  intro ws
  induction ws with
  | nil =>
    intro acc mq hfold
    rw [List.foldl_nil] at hfold
    refine ⟨fun m hm => ?_, fun w hmem => absurd hmem (List.not_mem_nil w)⟩
    rw [hm] at hfold
    cases hfold
    exact Nat.le_refl _
  | cons w ws ih =>
    intro acc mq hfold
    rw [List.foldl_cons] at hfold
    obtain ⟨ha, hcov⟩ := ih (scanStepSpec lower acc w) mq hfold
    have hstepmono : ∀ m, acc = some m →
        ∀ m2, scanStepSpec lower acc w = some m2 → m2.endIdx ≤ m.endIdx := by
      intro m hm m2 hm2
      subst hm
      cases hidx : indexOfSub w lower with
      | none =>
        simp only [scanStepSpec, hidx] at hm2
        cases hm2
        exact Nat.le_refl _
      | some i =>
        simp only [scanStepSpec, hidx] at hm2
        by_cases hlt : i + w.length < m.endIdx
        · rw [if_pos hlt] at hm2
          cases hm2
          exact Nat.le_of_lt hlt
        · rw [if_neg hlt] at hm2
          cases hm2
          exact Nat.le_refl _
    refine ⟨?_, ?_⟩
    · intro m hm
      have hsome : ∃ m2, scanStepSpec lower acc w = some m2 := by
        subst hm
        cases hidx : indexOfSub w lower with
        | none => exact ⟨m, by simp only [scanStepSpec, hidx]⟩
        | some i =>
          by_cases hlt : i + w.length < m.endIdx
          · exact ⟨⟨i + w.length, w⟩, by
              simp only [scanStepSpec, hidx]
              rw [if_pos hlt]⟩
          · exact ⟨m, by
              simp only [scanStepSpec, hidx]
              rw [if_neg hlt]⟩
      obtain ⟨m2, hm2⟩ := hsome
      exact Nat.le_trans (ha m2 hm2) (hstepmono m hm m2 hm2)
    · intro w' hw' i hi
      rcases List.mem_cons.mp hw' with hw' | hw'
      · rw [hw'] at hi ⊢
        cases hacc : acc with
        | none =>
          subst hacc
          have hnew : scanStepSpec lower none w = some ⟨i + w.length, w⟩ := by
            simp only [scanStepSpec, hi]
          exact ha ⟨i + w.length, w⟩ hnew
        | some m0 =>
          subst hacc
          by_cases hlt : i + w.length < m0.endIdx
          · have hnew : scanStepSpec lower (some m0) w = some ⟨i + w.length, w⟩ := by
              simp only [scanStepSpec, hi]
              rw [if_pos hlt]
            exact ha ⟨i + w.length, w⟩ hnew
          · have hkeep : scanStepSpec lower (some m0) w = some m0 := by
              simp only [scanStepSpec, hi]
              rw [if_neg hlt]
            have hq := ha m0 hkeep
            omega
      · exact hcov w' hw' i hi

/-- Witness for C9: slicing the chunks [1,2,3] and [4] with segment
length 2 emits [1,2] and [3,4]. -/
theorem spec_C9_witness :
    (0 < 2) ∧
      (((runStreamer 2 [[1, 2, 3], [4]]).emitted.flatten ++
          (runStreamer 2 [[1, 2, 3], [4]]).buffer
        = ([[1, 2, 3], [4]] : List (List Nat)).flatten) ∧
      (∀ seg ∈ (runStreamer 2 [[1, 2, 3], [4]]).emitted, seg.length = 2) ∧
      ((runStreamer 2 [[1, 2, 3], [4]]).buffer.length < 2) ∧
      List.IsPrefix (runStreamer 2 [[1, 2, 3], [4]]).emitted.flatten
        ([[1, 2, 3], [4]] : List (List Nat)).flatten) :=
  ⟨by decide, spec_C9 2 (by decide) [[1, 2, 3], [4]]⟩

/-- The spec-side selection fold only ever holds a first occurrence of a
stop word. -/
theorem foldl_spec_sound (lower : List Char) :
    ∀ (ws : List (List Char)) (acc : Option StopScan),
      (∀ w ∈ ws, w ∈ stopWords) →
      (∀ m, acc = some m → m.word ∈ stopWords ∧
        indexOfSub m.word lower = some (m.endIdx - m.word.length) ∧
        m.word.length ≤ m.endIdx) →
      ∀ mq, List.foldl (scanStepSpec lower) acc ws = some mq →
        mq.word ∈ stopWords ∧
        indexOfSub mq.word lower = some (mq.endIdx - mq.word.length) ∧
        mq.word.length ≤ mq.endIdx := by
  intro ws
  induction ws with
  | nil =>
    intro acc _ hinv mq hfold
    rw [List.foldl_nil] at hfold
    exact hinv mq hfold
  | cons w ws ih =>
    intro acc hsub hinv mq hfold
    rw [List.foldl_cons] at hfold
    refine ih (scanStepSpec lower acc w)
      (fun w' hw' => hsub w' (List.mem_cons_of_mem w hw')) ?_ mq hfold
    intro m hm
    cases hidx : indexOfSub w lower with
    | none =>
      simp only [scanStepSpec, hidx] at hm
      exact hinv m hm
    | some i =>
      cases hacc : acc with
      | none =>
        subst hacc
        simp only [scanStepSpec, hidx] at hm
        cases hm
        refine ⟨hsub w (List.mem_cons_self w ws), ?_, ?_⟩
        · show indexOfSub w lower = some (i + w.length - w.length)
          rw [show i + w.length - w.length = i from by omega]
          exact hidx
        · show w.length ≤ i + w.length
          omega
      | some m0 =>
        subst hacc
        simp only [scanStepSpec, hidx] at hm
        by_cases hlt : i + w.length < m0.endIdx
        · rw [if_pos hlt] at hm
          cases hm
          refine ⟨hsub w (List.mem_cons_self w ws), ?_, ?_⟩
          · show indexOfSub w lower = some (i + w.length - w.length)
            rw [show i + w.length - w.length = i from by omega]
            exact hidx
          · show w.length ≤ i + w.length
            omega
        · rw [if_neg hlt] at hm
          cases hm
          exact hinv m rfl

/-- With no stop word occurring, the source selection fold keeps its
accumulator. -/
theorem foldl_scan_none (lower : List Char) :
    ∀ (ws : List (List Char)) (acc : Option StopScan),
      (∀ w ∈ ws, indexOfSub w lower = none) →
      List.foldl (scanStep lower) acc ws = acc := by
  intro ws
  induction ws with
  | nil => intro acc _; rfl
  | cons w ws ih =>
    intro acc hn
    rw [List.foldl_cons]
    have hw : scanStep lower acc w = acc := by
      simp only [scanStep, hn w (List.mem_cons_self w ws)]
    rw [hw]
    exact ih acc (fun w' hw' => hn w' (List.mem_cons_of_mem w hw'))

/-- C5: extractInstructionAfterStop agrees everywhere with the
spec-described variant that selects the earliest-ending stop-word match
(the intervals of first occurrences of distinct stop words never nest,
so the source loop's earliest-start selection picks the same match); the
selected match is a real stop-word occurrence ending no later than any
stop-word occurrence in the text; and text with no stop word yields
none. -/
theorem spec_C5 :
    ∀ text : List Char,
      extractInstructionAfterStop text = extractInstructionAfterStopSpec text ∧
      (∀ m, findStopMatch (toLowerText text) = some m →
        m.word ∈ stopWords ∧
        occursAt m.word (toLowerText text) (m.endIdx - m.word.length) = true ∧
        ∀ w ∈ stopWords, ∀ j, occursAt w (toLowerText text) j = true →
          m.endIdx ≤ j + w.length) ∧
      (containsStopWords text = false →
        extractInstructionAfterStop text = none) := by
  intro text
  have hfold : findStopMatch (toLowerText text) = findStopMatchSpec (toLowerText text) := by
    unfold findStopMatch findStopMatchSpec
    exact foldl_scan_eq (toLowerText text) stopWords none (by decide)
      (fun w hw => hw) (fun m hm => nomatch hm)
  refine ⟨?_, ?_, ?_⟩
  · unfold extractInstructionAfterStop extractInstructionAfterStopSpec
    rw [hfold]
  · intro m hm
    have hm' := hm
    rw [hfold] at hm'
    unfold findStopMatchSpec at hm'
    obtain ⟨s1, s2, s3⟩ := foldl_spec_sound (toLowerText text) stopWords none
      (fun w hw => hw) (fun m0 hm0 => nomatch hm0) m hm'
    refine ⟨s1, (indexOfSub_some m.word (toLowerText text) _ s2).1, ?_⟩
    intro w hw j hocc
    obtain ⟨i, hi, hile⟩ := indexOfSub_complete w (toLowerText text) j hocc
    have hmin := (foldl_spec_min (toLowerText text) stopWords none m hm').2 w hw i hi
    omega
  · intro hnone
    have hidxall : ∀ w ∈ stopWords, indexOfSub w (toLowerText text) = none := by
      intro w hw
      have h := hnone
      unfold containsStopWords at h
      rw [List.any_eq_false] at h
      have hcw := h w hw
      unfold containsSub at hcw
      cases hx : indexOfSub w (toLowerText text) with
      | none => rfl
      | some i =>
        rw [hx] at hcw
        simp at hcw
    unfold extractInstructionAfterStop
    have hres : findStopMatch (toLowerText text) = none := by
      unfold findStopMatch
      exact foldl_scan_none (toLowerText text) stopWords none hidxall
    rw [hres]

/-- Witness for C5: text with no stop word yields none, and on a text
containing one stop word the loop selects exactly its occurrence. -/
theorem spec_C5_witness :
    (containsStopWords "hello there".data = false ∧
      extractInstructionAfterStop "hello there".data = none) ∧
    (findStopMatch (toLowerText "please stop now dance".data)
        = some ⟨11, "stop".data⟩ ∧
      (11 : Nat) ≤ 7 + ("stop".data).length) := by
  constructor
  · exact ⟨by decide, (spec_C5 "hello there".data).2.2 (by decide)⟩
  · constructor
    · decide
    · exact ((spec_C5 "please stop now dance".data).2.1 ⟨11, "stop".data⟩
        (by decide)).2.2 "stop".data (by decide) 7 (by decide)

end MaxAi
